import Mathlib

/-!
Verification of the TightEV volume-energy curve driver (`evxtb/xtb_ev.py`).

The Python source is shallowly embedded here:
* Python strings are modelled as `List Char` (`Str`), Python floats as exact
  rationals (`ℚ`) for the text-processing layer and as reals (`ℝ`) for the
  algebraic layer, so "within floating-point tolerance" statements become
  exact equalities of the embedded values.
* fallible operations (`float(...)`, `int(...)`, subscripts out of range,
  the regular-expression search without a match, `np.gcd.reduce` of an
  empty array) return `Except`/`Option` failure values.
* the external xtb engine invocation and the ASE equation-of-state fit are
  treated as oracles passed in as function parameters.
-/

namespace TightEV

/-- Python strings, modelled as lists of characters. -/
abbrev Str := List Char

/-- Whitespace in the sense of Python `str.split()` and of the regular
expression class `\s`: space, tab, newline, carriage return, vertical tab,
form feed. -/
def isWsPy (c : Char) : Bool :=
  c = ' ' || c = '\t' || c = '\n' || c = '\r' || c = '\x0b' || c = '\x0c'

/-- Numeric value of a decimal digit character. -/
def digVal (c : Char) : ℕ := c.toNat - 48

/-- The decimal digit character for a value below ten. -/
def digitChar (d : ℕ) : Char :=
  match d with
  | 0 => '0' | 1 => '1' | 2 => '2' | 3 => '3' | 4 => '4'
  | 5 => '5' | 6 => '6' | 7 => '7' | 8 => '8' | 9 => '9'
  | _ => '0'

/-- Value of a big-endian string of decimal digit characters. -/
def charsVal (s : Str) : ℕ := s.foldl (fun a c => 10 * a + digVal c) 0

/-- Split a text into lines at every newline character, keeping empty
pieces; this is Python `text.split("\n")`. -/
def splitNl : Str → List Str
  | [] => [[]]
  | c :: rest =>
    if c = '\n' then [] :: splitNl rest
    else
      match splitNl rest with
      | [] => [[c]]
      | l :: ls => (c :: l) :: ls

/-- Join lines with newline characters; this is Python `"\n".join(lines)`. -/
def joinNl : List Str → Str
  | [] => []
  | [s] => s
  | s :: s2 :: rest => s ++ '\n' :: joinNl (s2 :: rest)

/-- Remove all trailing newline characters; Python `text.rstrip("\n")`. -/
def rstripNl (s : Str) : Str := (s.reverse.dropWhile (fun c => c = '\n')).reverse

/-- Worker for `splitWs`: `cur` holds the current word, reversed. -/
def splitWsGo : Str → Str → List Str
  | [], cur => if cur = [] then [] else [cur.reverse]
  | c :: rest, cur =>
    if isWsPy c then
      if cur = [] then splitWsGo rest [] else cur.reverse :: splitWsGo rest []
    else splitWsGo rest (c :: cur)

/-- Split a text on runs of whitespace, dropping empty pieces; this is
Python `text.split()` with no separator argument. -/
def splitWs (s : Str) : List Str := splitWsGo s []

/-- Remove a leading sign character, reporting whether it was a minus;
shared by the embeddings of Python `float(...)` and `int(...)`. -/
def splitSign (s : Str) : Bool × Str :=
  if s.head? = some '-' then (true, s.tail)
  else if s.head? = some '+' then (false, s.tail)
  else (false, s)

/-- Parse the exponent part of a Python float literal, after the `e`:
an optional sign followed by at least one digit, consuming everything. -/
def parseExpPart (s : Str) : Option ℤ :=
  let p := splitSign s
  if p.2 ≠ [] ∧ ∀ c ∈ p.2, c.isDigit = true then
    some ((if p.1 then -1 else 1) * (charsVal p.2 : ℤ))
  else none

/-- Embedding of Python `float(token)` on decimal literals: optional sign,
integer digits and/or a point with fraction digits, optional exponent.
(The special tokens `inf` and `nan` and underscore separators do not occur
in the structure files and are not modelled.) Returns `none` where Python
raises `ValueError`. -/
def parseFloat (s : Str) : Option ℚ :=
  let p := splitSign s
  let s1 := p.2
  let d1 := s1.takeWhile Char.isDigit
  let r1 := s1.dropWhile Char.isDigit
  let core : Option (ℚ × Str) :=
    if r1.head? = some '.' then
      let d2 := r1.tail.takeWhile Char.isDigit
      let r2 := r1.tail.dropWhile Char.isDigit
      if d1 = [] ∧ d2 = [] then none
      else some ((charsVal d1 : ℚ) + (charsVal d2 : ℚ) / 10 ^ d2.length, r2)
    else if d1 = [] then none
    else some ((charsVal d1 : ℚ), r1)
  match core with
  | none => none
  | some (m, rest) =>
    let sgn : ℚ := if p.1 then -1 else 1
    if rest = [] then some (sgn * m)
    else if rest.head? = some 'e' ∨ rest.head? = some 'E' then
      (parseExpPart rest.tail).map (fun ex => sgn * m * (10:ℚ) ^ ex)
    else none

/-- Embedding of Python `int(token)`: optional sign followed by at least
one digit. Returns `none` where Python raises `ValueError`. -/
def parseInt (s : Str) : Option ℤ :=
  let p := splitSign s
  if p.2 ≠ [] ∧ ∀ c ∈ p.2, c.isDigit = true then
    some ((if p.1 then -1 else 1) * (charsVal p.2 : ℤ))
  else none

/-- `mapOpt f l` applies the fallible `f` to every element, failing if any
application fails (the behaviour of a Python list comprehension whose body
can raise). -/
def mapOpt (f : α → Option β) : List α → Option (List β)
  | [] => some []
  | a :: l =>
    match f a, mapOpt f l with
    | some b, some bs => some (b :: bs)
    | _, _ => none

/-- Failure cases of the structure-file parser: a `float(...)`/`int(...)`
conversion error, a line subscript out of range, or `np.array` applied to
rows of unequal lengths. All surface as a hard parse failure. -/
inductive ParseError
  | malformedToken
  | missingLine
  | raggedRows
deriving DecidableEq

/-- `True` exactly on the failure values of an `Except`. -/
def isErr : Except ε α → Bool
  | .error _ => true
  | .ok _ => false

/-- The substitution placeholder written into the template, Python `"\x7b\x7d"`. -/
def placeholder : Str := ['\x7b', '\x7d']

/-- `np.array` accepts a list of rows only when they all have the same
length; otherwise it raises. -/
def sameLengths : List (List ℚ) → Bool
  | [] => true
  | r :: rest => rest.all (fun x => x.length == r.length)

/-- Embedding of `VaspHandler.read_vasp_lat`: split the file text into
lines, parse the lines at indices 2 to 4 as whitespace-separated floats into
the lattice matrix, and join lines 0 to 1, a placeholder and lines 5 onward
into the template. -/
def read_vasp_lat (buffer : Str) : Except ParseError (List (List ℚ) × Str) :=
  let lines := splitNl buffer
  let elems := (lines.drop 2).take 3
  match mapOpt (fun l => mapOpt parseFloat (splitWs l)) elems with
  | none => .error .malformedToken
  | some rows =>
    if sameLengths rows then
      .ok (rows, joinNl (lines.take 2 ++ [placeholder] ++ lines.drop 5))
    else .error .raggedRows

/-- Embedding of `VaspHandler.read_vasp_repeats`: split the file text into
lines and parse the line at index 6 as whitespace-separated integers. -/
def read_vasp_repeats (buffer : Str) : Except ParseError (List ℤ) :=
  let lines := splitNl buffer
  match lines.get? 6 with
  | none => .error .missingLine
  | some l =>
    match mapOpt parseInt (splitWs l) with
    | none => .error .malformedToken
    | some row => .ok row

/-- The full structure-file parse, in the order the driver performs it: the
handler constructor runs `read_vasp_lat`, then `find_repeat_unit` runs
`read_vasp_repeats` on the same file. -/
def parseStructure (buffer : Str) :
    Except ParseError ((List (List ℚ) × Str) × List ℤ) :=
  match read_vasp_lat buffer with
  | .error e => .error e
  | .ok latTmpl =>
    match read_vasp_repeats buffer with
    | .error e => .error e
    | .ok reps => .ok (latTmpl, reps)

/-- Failure cases of the repeat-unit counter: `np.gcd.reduce` raises on the
empty (float-typed) array produced by an empty species-count line. -/
inductive InputError
  | emptyCounts
deriving DecidableEq

/-- `np.gcd` on integers: the nonnegative greatest common divisor. -/
def gcdZ (a b : ℤ) : ℤ := (Int.gcd a b : ℤ)

/-- Embedding of `find_repeat_unit` (with the file read factored out:
`read_vasp_repeats` supplies `counts`): `np.gcd.reduce(counts)`, a left
fold of `np.gcd`, which raises on an empty array. -/
def find_repeat_unit (counts : List ℤ) : Except InputError ℤ :=
  match counts with
  | [] => .error .emptyCounts
  | c :: rest => .ok (rest.foldl gcdZ c)

/-- A lattice matrix: three row vectors of three real components. -/
abbrev Mat3 := Fin 3 → Fin 3 → ℝ

/-- `np.cross` on three-component vectors. -/
def cross3 (a b : Fin 3 → ℝ) : Fin 3 → ℝ :=
  ![a 1 * b 2 - a 2 * b 1, a 2 * b 0 - a 0 * b 2, a 0 * b 1 - a 1 * b 0]

/-- `np.dot` on three-component vectors. -/
def dot3 (a b : Fin 3 → ℝ) : ℝ := a 0 * b 0 + a 1 * b 1 + a 2 * b 2

/-- Embedding of `unit_vol`: the scalar triple product of the three rows
of the lattice matrix, `np.dot(np.cross(a, b), c)`. -/
def unit_vol (lat_params : Mat3) : ℝ :=
  dot3 (cross3 (fun j => lat_params 0 j) (fun j => lat_params 1 j))
    (fun j => lat_params 2 j)

/-- The real value of Python `scale ** (1 / 3)` for nonnegative bases. -/
noncomputable def cbrt (s : ℝ) : ℝ := s ^ ((1:ℝ)/3)

/-- Embedding of `resize_lat` on the real (nonnegative-scale) branch of
Python `**`: `scale ** (1 / 3) * array`, the scalar multiplying every
component of the array. -/
noncomputable def resize_lat (array : Mat3) (scale : ℝ) : Mat3 :=
  fun i j => cbrt scale * array i j

/-- The complex value of Python `scale ** (1 / 3)` on all reals: for a
negative base Python returns the principal complex power. -/
noncomputable def pyPowThird (s : ℝ) : ℂ := (s : ℂ) ^ ((1:ℂ)/3)

/-- Embedding of `resize_lat` with the full Python `**` semantics: for a
negative scale the scalar, and with it every matrix component, is complex. -/
noncomputable def resize_latC (array : Mat3) (scale : ℝ) : Fin 3 → Fin 3 → ℂ :=
  fun i j => pyPowThird scale * (array i j : ℂ)

/-- Embedding of the `xtbev` loop body accumulation: each iteration appends
one energy and one volume. -/
noncomputable def xtbevStep (lat_params : Mat3) (rnum : ℤ) (engine : ℝ → ℝ)
    (acc : List ℝ × List ℝ) (sf : ℝ) : List ℝ × List ℝ :=
  (acc.1 ++ [unit_vol lat_params * sf], acc.2 ++ [engine sf / (rnum : ℝ)])

/-- Embedding of the curve driver `xtbev`, on a parsed structure: the
lattice matrix and species counts stand for the parsed file, and `engine`
is the deterministic oracle for `interpret_xtb(run_xtb(...))` on the file
written for a given scale factor. The repeat-unit count is computed once,
before the loop; the loop then appends `unit_vol(lat) * sf` to the volumes
and `engine(sf) / rnum` to the energies, in input order. -/
noncomputable def xtbev (lat_params : Mat3) (counts : List ℤ) (engine : ℝ → ℝ)
    (sfs : List ℝ) : Except InputError (List ℝ × List ℝ) :=
  match find_repeat_unit counts with
  | .error e => .error e
  | .ok rnum => .ok (sfs.foldl (xtbevStep lat_params rnum engine) ([], []))

/-- `ase.units.Hartree` (CODATA value used by ASE), in eV. -/
def Hartree : ℚ := 27211386024367243 / 1000000000000000

/-- `ase.units.eV`: the base energy unit of ASE. -/
def eV : ℚ := 1

/-- `ase.units.kJ`, in eV. -/
def kJ : ℚ := 6241509125883258 * 10 ^ 6

/-- Embedding of `ev_bulk`, with the ASE Murnaghan fit as an oracle `fit`:
the energies are converted by `Hartree / eV` before fitting, the fit result
is returned unchanged, and the second component is the value printed to
standard output, the bulk modulus converted to GPa by `B / kJ * 1.0e24`. -/
def ev_bulk (fit : List ℚ → List ℚ → ℚ × ℚ × ℚ) (volumes energies : List ℚ) :
    (ℚ × ℚ × ℚ) × ℚ :=
  let energiesConv := energies.map (fun e => e * Hartree / eV)
  let r := fit volumes energiesConv
  ((r.1, r.2.1, r.2.2), r.2.2 / kJ * 10 ^ (24:ℕ))

/-- A concrete stand-in equation-of-state fit used to witness that `ev_bulk`
hands the fit the converted, not the native, energies. -/
def fitHead : List ℚ → List ℚ → ℚ × ℚ × ℚ :=
  fun volumes energies => (volumes.headI, energies.headI, energies.headI)

/-- The literal part of the energy pattern `TOTAL ENERGY\s+(-?\d+\.\d+)`. -/
def energyLabel : Str := "TOTAL ENERGY".data

/-- `hasPfx pat s` holds when `pat` begins `s`. -/
def hasPfx : Str → Str → Bool
  | [], _ => true
  | _ :: _, [] => false
  | p :: ps, c :: cs => p = c && hasPfx ps cs

/-- `containsSub pat s`: some position of `s` starts with `pat`. -/
def containsSub (pat : Str) : Str → Bool
  | [] => hasPfx pat []
  | c :: rest => hasPfx pat (c :: rest) || containsSub pat rest

/-- The numeric value of a match of `-?\d+\.\d+`, from its sign and its
digit groups before and after the point. -/
def numVal (neg : Bool) (d1 d2 : Str) : ℚ :=
  (if neg then -1 else 1) *
    ((charsVal d1 : ℚ) + (charsVal d2 : ℚ) / 10 ^ d2.length)

/-- Match `\d+\.\d+` at the start of `s2`, by maximal munch, and pair the
digit groups with the already-decided sign. -/
def tryNumDigits (neg : Bool) (s2 : Str) : Option ℚ :=
  let d1 := s2.takeWhile Char.isDigit
  let r1 := s2.dropWhile Char.isDigit
  if d1 = [] then none
  else if r1.head? = some '.' then
    let d2 := r1.tail.takeWhile Char.isDigit
    if d2 = [] then none else some (numVal neg d1 d2)
  else none

/-- Match `-?\d+\.\d+` at the start of `s1`. -/
def tryNumSign (s1 : Str) : Option ℚ :=
  if s1.head? = some '-' then tryNumDigits true s1.tail else tryNumDigits false s1

/-- Match `\s+(-?\d+\.\d+)` at the start of `s` and return the value of the
captured group. The character classes `\s`, `-` and `\d` are disjoint, so
the greedy backtracking search of the regular-expression engine reduces to
maximal munch. -/
def tryNum (s : Str) : Option ℚ :=
  if s.takeWhile isWsPy = [] then none else tryNumSign (s.dropWhile isWsPy)

/-- A successful match of the whole pattern starting exactly at the front
of `s`: the literal label, then `\s+(-?\d+\.\d+)`. -/
def matchAt (s : Str) : Option ℚ :=
  if hasPfx energyLabel s then tryNum (s.drop energyLabel.length) else none

/-- `re.search` for the fixed pattern: try to match at each position from
the left; at a position where the literal label matches but the numeric
part does not, move one character forward, as the engine does. -/
def scanTE : Str → Option ℚ
  | [] => none
  | c :: rest =>
    match matchAt (c :: rest) with
    | some v => some v
    | none => scanTE rest

/-- Embedding of `interpret_xtb`: search the engine output for
`TOTAL ENERGY\s+(-?\d+\.\d+)` and return the captured number; `none` models
the exception Python raises on a failed search (`match.group` on `None`). -/
def interpret_xtb (xtb_output : Str) : Option ℚ := scanTE xtb_output

/-- The smallest exponent `k` such that `q * 10 ^ k` is an integer, found
by bounded search; `none` when `q` has no terminating decimal expansion.
Every Python float has one, so on embedded float values this is total. -/
def decExp (q : ℚ) : Option ℕ :=
  (List.range (q.den + 1)).find? (fun k => 10 ^ k % q.den == 0)

/-- Little-endian decimal digits with explicit fuel, so that the definition
is structurally recursive and kernel-reducible. -/
def digitsAux : ℕ → ℕ → List ℕ
  | 0, _ => []
  | _ + 1, 0 => []
  | fuel + 1, n + 1 => (n + 1) % 10 :: digitsAux fuel ((n + 1) / 10)

/-- Little-endian decimal digits of a natural number (empty for zero). -/
def natDigitsLE (n : ℕ) : List ℕ := digitsAux n n

/-- Big-endian decimal digits of `n`, left-padded with zeros to at least
`len` digits. -/
def digitsPadded (n len : ℕ) : List ℕ :=
  let ds := (natDigitsLE n).reverse
  List.replicate (len - ds.length) 0 ++ ds

/-- Value of a big-endian list of decimal digits. -/
def valBE (ds : List ℕ) : ℕ := ds.foldl (fun a d => 10 * a + d) 0

/-- Embedding of Python `str(x)` on float values with terminating decimal
expansion: the sign, the integer digits, a point, and the fraction digits
(a single `0` when the value is integral), with no exponent form. This is
the shortest exact decimal of the value, which is what `str` prints for
floats that denote short decimals exactly. -/
def pyStr (q : ℚ) : Str :=
  match decExp q with
  | none => []
  | some k =>
    let m : ℕ := q.num.natAbs * (10 ^ k / q.den)
    let ds := digitsPadded m (k + 1)
    let ip := ds.take (ds.length - k)
    let fp := ds.drop (ds.length - k)
    (if q.num < 0 then ['-'] else []) ++ ip.map digitChar ++
      '.' :: (if k = 0 then ['0'] else fp.map digitChar)

/-- One iteration of the `format_array` loop: the row template
`"\x7b\x7d\t\x7b\x7d\t\x7b\x7d\n"` filled with the string forms of the three
row components. -/
def formatRow (row : ℚ × ℚ × ℚ) : Str :=
  pyStr row.1 ++ '\t' :: pyStr row.2.1 ++ '\t' :: pyStr row.2.2 ++ ['\n']

/-- Embedding of `format_array`: concatenate the formatted rows, then strip
the trailing newline. -/
def format_array (array : List (ℚ × ℚ × ℚ)) : Str :=
  rstripNl (array.foldl (fun acc row => acc ++ formatRow row) [])

/-- The characters of an optional leading minus sign (`-?` in the energy
pattern). -/
def signChars : Bool → Str
  | true => ['-']
  | false => []

theorem takeWhile_append_all {p : α → Bool} {xs : List α} (ys : List α)
    (hx : ∀ a ∈ xs, p a = true) :
    (xs ++ ys).takeWhile p = xs ++ ys.takeWhile p := by
  induction xs with
  | nil => simp
  | cons a l ih =>
    simp only [List.cons_append, List.takeWhile_cons, hx a (by simp)]
    simpa using ih (fun b hb => hx b (by simp [hb]))

theorem takeWhile_eq_nil_head {p : α → Bool} {ys : List α}
    (hy : ∀ a, ys.head? = some a → p a = false) :
    ys.takeWhile p = [] := by
  cases ys with
  | nil => rfl
  | cons a l => simp [List.takeWhile_cons, hy a rfl]

theorem dropWhile_append_all {p : α → Bool} {xs : List α} (ys : List α)
    (hx : ∀ a ∈ xs, p a = true) :
    (xs ++ ys).dropWhile p = ys.dropWhile p := by
  induction xs with
  | nil => simp
  | cons a l ih =>
    simp only [List.cons_append, List.dropWhile_cons, hx a (by simp)]
    exact ih (fun b hb => hx b (by simp [hb]))

theorem dropWhile_eq_self_head {p : α → Bool} {ys : List α}
    (hy : ∀ a, ys.head? = some a → p a = false) :
    ys.dropWhile p = ys := by
  cases ys with
  | nil => rfl
  | cons a l => simp [List.dropWhile_cons, hy a rfl]

theorem splitNl_ne_nil (s : Str) : splitNl s ≠ [] := by
  cases s with
  | nil => simp [splitNl]
  | cons c rest =>
    by_cases h : c = '\n'
    · simp [splitNl, h]
    · simp only [splitNl, if_neg h]
      rcases hs : splitNl rest with _ | ⟨l, ls⟩ <;> simp

theorem splitNl_of_no_nl {s : Str} (h : ∀ c ∈ s, c ≠ '\n') : splitNl s = [s] := by
  induction s with
  | nil => rfl
  | cons c rest ih =>
    have hc : c ≠ '\n' := h c (by simp)
    have hr : splitNl rest = [rest] := ih (fun x hx => h x (by simp [hx]))
    simp [splitNl, hc, hr]

theorem splitNl_append_nl {a : Str} (rest : Str) (h : ∀ c ∈ a, c ≠ '\n') :
    splitNl (a ++ '\n' :: rest) = a :: splitNl rest := by
  induction a with
  | nil => simp [splitNl]
  | cons c l ih =>
    have hc : c ≠ '\n' := h c (by simp)
    have hr := ih (fun x hx => h x (by simp [hx]))
    simp [splitNl, if_neg hc, hr]

theorem splitWsGo_word {w : Str} (s cur : Str) (h : ∀ c ∈ w, isWsPy c = false) :
    splitWsGo (w ++ s) cur = splitWsGo s (w.reverse ++ cur) := by
  induction w generalizing cur with
  | nil => simp
  | cons c l ih =>
    have hc : isWsPy c = false := h c (by simp)
    rw [List.cons_append, splitWsGo, if_neg (by simp [hc])]
    rw [ih (c :: cur) (fun x hx => h x (by simp [hx]))]
    simp

theorem splitWsGo_ws_cons {c : Char} (rest cur : Str) (hc : isWsPy c = true)
    (hcur : cur ≠ []) :
    splitWsGo (c :: rest) cur = cur.reverse :: splitWsGo rest [] := by
  rw [splitWsGo, if_pos hc, if_neg hcur]

theorem splitWsGo_nil {cur : Str} (hcur : cur ≠ []) :
    splitWsGo [] cur = [cur.reverse] := by
  rw [splitWsGo, if_neg hcur]

theorem splitWsGo_last {w : Str} (h : ∀ c ∈ w, isWsPy c = false) (n : w ≠ []) :
    splitWsGo w [] = [w] := by
  conv_lhs => rw [show w = w ++ [] by simp]
  rw [splitWsGo_word [] [] h, List.append_nil, splitWsGo_nil (by simpa using n),
    List.reverse_reverse]

theorem splitWs_three_words {w1 w2 w3 : Str}
    (h1 : ∀ c ∈ w1, isWsPy c = false) (h2 : ∀ c ∈ w2, isWsPy c = false)
    (h3 : ∀ c ∈ w3, isWsPy c = false)
    (n1 : w1 ≠ []) (n2 : w2 ≠ []) (n3 : w3 ≠ []) :
    splitWs (w1 ++ '\t' :: (w2 ++ '\t' :: w3)) = [w1, w2, w3] := by
  have htab : isWsPy '\t' = true := by decide
  unfold splitWs
  rw [splitWsGo_word _ _ h1, List.append_nil,
    splitWsGo_ws_cons _ _ htab (by simpa using n1), List.reverse_reverse,
    splitWsGo_word _ _ h2, List.append_nil,
    splitWsGo_ws_cons _ _ htab (by simpa using n2), List.reverse_reverse,
    splitWsGo_last h3 n3]

theorem ofDigits_digitsAux {n fuel : ℕ} (h : n ≤ fuel) :
    Nat.ofDigits 10 (digitsAux fuel n) = n := by
  induction fuel generalizing n with
  | zero => interval_cases n; simp [digitsAux]
  | succ f ih =>
    cases n with
    | zero => simp [digitsAux]
    | succ m =>
      have hdiv : (m + 1) / 10 ≤ f := by
        have : (m + 1) / 10 < m + 1 := Nat.div_lt_self (Nat.succ_pos m) (by norm_num)
        omega
      rw [digitsAux, Nat.ofDigits_cons, ih hdiv]
      omega

theorem digitsAux_lt {fuel n : ℕ} : ∀ d ∈ digitsAux fuel n, d < 10 := by
  induction fuel generalizing n with
  | zero => simp [digitsAux]
  | succ f ih =>
    cases n with
    | zero => simp [digitsAux]
    | succ m =>
      intro d hd
      rw [digitsAux] at hd
      rcases List.mem_cons.mp hd with h | h
      · subst h; exact Nat.mod_lt _ (by norm_num)
      · exact ih d h

theorem foldl_digits_acc (a : ℕ) (ys : List ℕ) :
    ys.foldl (fun a d => 10 * a + d) a =
      a * 10 ^ ys.length + ys.foldl (fun a d => 10 * a + d) 0 := by
  induction ys generalizing a with
  | nil => simp
  | cons d l ih =>
    simp only [List.foldl_cons, List.length_cons]
    rw [ih (10 * a + d), show (10 * 0 + d : ℕ) = d from by ring, ih d]
    ring

theorem valBE_cons_acc (a : ℕ) (ys : List ℕ) :
    ys.foldl (fun a d => 10 * a + d) a = a * 10 ^ ys.length + valBE ys := by
  unfold valBE
  exact foldl_digits_acc a ys

theorem valBE_append (xs ys : List ℕ) :
    valBE (xs ++ ys) = valBE xs * 10 ^ ys.length + valBE ys := by
  unfold valBE
  rw [List.foldl_append, valBE_cons_acc]
  rfl

theorem valBE_reverse (l : List ℕ) : valBE l.reverse = Nat.ofDigits 10 l := by
  induction l with
  | nil => simp [valBE, Nat.ofDigits]
  | cons d t ih =>
    rw [List.reverse_cons, valBE_append, ih, Nat.ofDigits_cons, valBE]
    simp
    ring

theorem valBE_replicate_zero (m : ℕ) (ds : List ℕ) :
    valBE (List.replicate m 0 ++ ds) = valBE ds := by
  rw [valBE_append]
  have : valBE (List.replicate m 0) = 0 := by
    induction m with
    | zero => rfl
    | succ k ih =>
      rw [List.replicate_succ, valBE, List.foldl_cons]
      simpa [valBE] using ih
  simp [this]

theorem valBE_digitsPadded (n len : ℕ) : valBE (digitsPadded n len) = n := by
  unfold digitsPadded
  rw [valBE_replicate_zero, valBE_reverse]
  exact ofDigits_digitsAux le_rfl

theorem digitsPadded_lt {n len : ℕ} : ∀ d ∈ digitsPadded n len, d < 10 := by
  intro d hd
  unfold digitsPadded at hd
  rcases List.mem_append.mp hd with h | h
  · have := List.eq_of_mem_replicate h
    omega
  · exact digitsAux_lt d (List.mem_reverse.mp h)

theorem digitsPadded_length_ge (n len : ℕ) : len ≤ (digitsPadded n len).length := by
  unfold digitsPadded
  simp only [List.length_append, List.length_replicate]
  omega

theorem digVal_digitChar {d : ℕ} (h : d < 10) : digVal (digitChar d) = d := by
  interval_cases d <;> decide

theorem isDigit_digitChar {d : ℕ} (h : d < 10) : (digitChar d).isDigit = true := by
  interval_cases d <;> decide

theorem foldl_digVal_map {ds : List ℕ} (h : ∀ d ∈ ds, d < 10) (a : ℕ) :
    (ds.map digitChar).foldl (fun a c => 10 * a + digVal c) a =
      ds.foldl (fun a d => 10 * a + d) a := by
  induction ds generalizing a with
  | nil => rfl
  | cons d t ih =>
    simp only [List.map_cons, List.foldl_cons]
    rw [digVal_digitChar (h d (by simp))]
    exact ih (fun x hx => h x (by simp [hx])) _

theorem charsVal_map_digitChar {ds : List ℕ} (h : ∀ d ∈ ds, d < 10) :
    charsVal (ds.map digitChar) = valBE ds := by
  unfold charsVal valBE
  exact foldl_digVal_map h 0

theorem takeWhile_eq_self_all {p : α → Bool} {l : List α} (h : ∀ a ∈ l, p a = true) :
    l.takeWhile p = l := by
  induction l with
  | nil => rfl
  | cons a t ih =>
    rw [List.takeWhile_cons, if_pos (h a (by simp)), ih (fun x hx => h x (by simp [hx]))]

theorem dropWhile_eq_nil_all {p : α → Bool} {l : List α} (h : ∀ a ∈ l, p a = true) :
    l.dropWhile p = [] := by
  induction l with
  | nil => rfl
  | cons a t ih =>
    rw [List.dropWhile_cons, if_pos (h a (by simp))]
    exact ih (fun x hx => h x (by simp [hx]))

theorem digitChar_mem (d : ℕ) :
    digitChar d ∈ ['0', '1', '2', '3', '4', '5', '6', '7', '8', '9'] := by
  unfold digitChar
  split <;> decide

theorem mem_digits_prop :
    ∀ c ∈ ['0', '1', '2', '3', '4', '5', '6', '7', '8', '9'],
      c.isDigit = true ∧ isWsPy c = false ∧ c ≠ '\n' ∧ c ≠ '-' ∧ c ≠ '+' ∧
        c ≠ '.' ∧ c ≠ 'e' ∧ c ≠ 'E' := by
  decide

theorem mapped_digit_facts {ds : List ℕ} :
    ∀ c ∈ ds.map digitChar,
      c.isDigit = true ∧ isWsPy c = false ∧ c ≠ '\n' ∧ c ≠ '-' ∧ c ≠ '+' ∧
        c ≠ '.' ∧ c ≠ 'e' ∧ c ≠ 'E' := by
  intro c hc
  obtain ⟨d, _, rfl⟩ := List.mem_map.mp hc
  exact mem_digits_prop _ (digitChar_mem d)

theorem parseFloat_shape {ip fp : List ℕ} (neg : Bool)
    (hip : ∀ d ∈ ip, d < 10) (hfp : ∀ d ∈ fp, d < 10)
    (hipne : ip ≠ []) :
    parseFloat ((if neg then ['-'] else []) ++
        ip.map digitChar ++ '.' :: fp.map digitChar) =
      some ((if neg then (-1:ℚ) else 1) *
        ((valBE ip : ℚ) + (valBE fp : ℚ) / 10 ^ fp.length)) := by
  obtain ⟨d0, ip0, rfl⟩ := List.exists_cons_of_ne_nil hipne
  have hd0 := mem_digits_prop _ (digitChar_mem d0)
  have hdigits1 : ∀ c ∈ (d0 :: ip0).map digitChar, Char.isDigit c = true :=
    fun c hc => (mapped_digit_facts c hc).1
  have hdigits2 : ∀ c ∈ fp.map digitChar, Char.isDigit c = true :=
    fun c hc => (mapped_digit_facts c hc).1
  have hdot : ∀ a : Char, ('.' :: fp.map digitChar).head? = some a →
      Char.isDigit a = false := by
    intro a ha
    simp only [List.head?_cons, Option.some.injEq] at ha
    subst ha
    decide
  have hd1 : ((d0 :: ip0).map digitChar ++ '.' :: fp.map digitChar).takeWhile
      Char.isDigit = (d0 :: ip0).map digitChar := by
    rw [takeWhile_append_all _ hdigits1, takeWhile_eq_nil_head hdot, List.append_nil]
  have hr1 : ((d0 :: ip0).map digitChar ++ '.' :: fp.map digitChar).dropWhile
      Char.isDigit = '.' :: fp.map digitChar := by
    rw [dropWhile_append_all _ hdigits1, dropWhile_eq_self_head hdot]
  have hd2 : (fp.map digitChar).takeWhile Char.isDigit = fp.map digitChar :=
    takeWhile_eq_self_all hdigits2
  have hr2 : (fp.map digitChar).dropWhile Char.isDigit = [] :=
    dropWhile_eq_nil_all hdigits2
  have hsign : splitSign ((if neg then ['-'] else []) ++
      (d0 :: ip0).map digitChar ++ '.' :: fp.map digitChar) =
      (neg, (d0 :: ip0).map digitChar ++ '.' :: fp.map digitChar) := by
    cases neg
    · simp [splitSign, hd0.2.2.2.1, hd0.2.2.2.2.1]
    · simp [splitSign]
  simp only [parseFloat, hsign, hd1, hr1, hd2, hr2, List.head?_cons,
    Option.some.injEq, List.tail_cons]
  rw [if_pos trivial]
  rw [if_neg (by simp)]
  rw [charsVal_map_digitChar hip, charsVal_map_digitChar hfp, List.length_map]
  simp

theorem m_div_eq {q : ℚ} {k : ℕ} (hdvd : q.den ∣ 10 ^ k) :
    ((q.num.natAbs * (10 ^ k / q.den) : ℕ) : ℚ) / 10 ^ k =
      (q.num.natAbs : ℚ) / q.den := by
  have hden : (q.den : ℚ) ≠ 0 := by
    exact_mod_cast q.den_nz
  have h10 : ((10:ℚ)) ^ k ≠ 0 := by positivity
  rw [Nat.cast_mul, Nat.cast_div hdvd hden]
  push_cast
  field_simp
  ring

theorem q_from_m {q : ℚ} {k : ℕ} (hdvd : q.den ∣ 10 ^ k) :
    (if q.num < 0 then (-1 : ℚ) else 1) *
      (((q.num.natAbs * (10 ^ k / q.den) : ℕ) : ℚ) / 10 ^ k) = q := by
  rw [m_div_eq hdvd]
  rcases lt_or_le q.num 0 with h | h
  · rw [if_pos h]
    have habs : ((q.num.natAbs : ℕ) : ℚ) = -(q.num : ℚ) := by
      rw [Int.cast_natAbs, abs_of_neg h]
      push_cast
      ring
    rw [habs, show (-1 : ℚ) * (-(q.num : ℚ) / q.den) = (q.num : ℚ) / q.den from by ring,
      Rat.num_div_den]
  · rw [if_neg (not_lt.mpr h), one_mul]
    have habs : ((q.num.natAbs : ℕ) : ℚ) = (q.num : ℚ) := by
      rw [Int.cast_natAbs, abs_of_nonneg h]
    rw [habs, Rat.num_div_den]

theorem parseFloat_pyStr_bool (sgnNeg : Bool) (m k : ℕ) :
    parseFloat ((if sgnNeg then ['-'] else []) ++
        ((digitsPadded m (k+1)).take ((digitsPadded m (k+1)).length - k)).map digitChar ++
        '.' :: (if k = 0 then ['0'] else
          ((digitsPadded m (k+1)).drop ((digitsPadded m (k+1)).length - k)).map digitChar)) =
      some ((if sgnNeg then (-1:ℚ) else 1) * ((m : ℚ) / 10 ^ k)) := by
  have hlen : k + 1 ≤ (digitsPadded m (k+1)).length := digitsPadded_length_ge _ _
  have hipd : ∀ d ∈ (digitsPadded m (k+1)).take ((digitsPadded m (k+1)).length - k),
      d < 10 := fun d hd => digitsPadded_lt d (List.mem_of_mem_take hd)
  have hfpd : ∀ d ∈ (digitsPadded m (k+1)).drop ((digitsPadded m (k+1)).length - k),
      d < 10 := fun d hd => digitsPadded_lt d (List.mem_of_mem_drop hd)
  have hiplen : ((digitsPadded m (k+1)).take ((digitsPadded m (k+1)).length - k)).length
      = (digitsPadded m (k+1)).length - k := by
    rw [List.length_take]
    omega
  have hipne : (digitsPadded m (k+1)).take ((digitsPadded m (k+1)).length - k) ≠ [] := by
    intro hnil
    have hl := congrArg List.length hnil
    rw [hiplen] at hl
    simp only [List.length_nil] at hl
    omega
  by_cases hk : k = 0
  · subst hk
    rw [if_pos rfl]
    have hshape := @parseFloat_shape _ [0] sgnNeg hipd (by decide) hipne
    rw [show List.map digitChar [0] = ['0'] from rfl] at hshape
    rw [hshape]
    have hval : valBE ((digitsPadded m 1).take ((digitsPadded m 1).length - 0)) = m := by
      simp only [Nat.sub_zero, List.take_length]
      exact valBE_digitsPadded m 1
    rw [hval]
    norm_num [valBE, digVal]
  · rw [if_neg hk]
    have hfplen : ((digitsPadded m (k+1)).drop
        ((digitsPadded m (k+1)).length - k)).length = k := by
      rw [List.length_drop]
      omega
    have hshape := parseFloat_shape sgnNeg hipd hfpd hipne
    rw [hshape, hfplen]
    have hsplit : valBE ((digitsPadded m (k+1)).take ((digitsPadded m (k+1)).length - k))
        * 10 ^ k +
        valBE ((digitsPadded m (k+1)).drop ((digitsPadded m (k+1)).length - k)) = m := by
      have hv := valBE_append
        ((digitsPadded m (k+1)).take ((digitsPadded m (k+1)).length - k))
        ((digitsPadded m (k+1)).drop ((digitsPadded m (k+1)).length - k))
      rw [List.take_append_drop, valBE_digitsPadded, hfplen] at hv
      omega
    congr 1
    have h10 : ((10:ℚ)) ^ k ≠ 0 := by positivity
    have hcast : (m : ℚ) =
        (valBE ((digitsPadded m (k+1)).take ((digitsPadded m (k+1)).length - k)) : ℚ)
          * 10 ^ k +
        (valBE ((digitsPadded m (k+1)).drop ((digitsPadded m (k+1)).length - k)) : ℚ) := by
      exact_mod_cast congrArg (fun n : ℕ => (n : ℚ)) hsplit.symm
    rw [hcast]
    field_simp

theorem parseFloat_pyStr_core (c : Prop) [Decidable c] (m k : ℕ) :
    parseFloat ((if c then ['-'] else []) ++
        ((digitsPadded m (k+1)).take ((digitsPadded m (k+1)).length - k)).map digitChar ++
        '.' :: (if k = 0 then ['0'] else
          ((digitsPadded m (k+1)).drop ((digitsPadded m (k+1)).length - k)).map digitChar)) =
      some ((if c then (-1:ℚ) else 1) * ((m : ℚ) / 10 ^ k)) := by
  by_cases hc : c
  · simp only [if_pos hc]
    simpa using parseFloat_pyStr_bool true m k
  · simp only [if_neg hc]
    simpa using parseFloat_pyStr_bool false m k

theorem parseFloat_pyStr {q : ℚ} {k : ℕ} (h : decExp q = some k) :
    parseFloat (pyStr q) = some q := by
  have hmod : 10 ^ k % q.den = 0 := by simpa using List.find?_some h
  have hdvd : q.den ∣ 10 ^ k := Nat.dvd_of_mod_eq_zero hmod
  have hq := q_from_m hdvd
  simp only [pyStr, h]
  rw [parseFloat_pyStr_core (q.num < 0) (q.num.natAbs * (10 ^ k / q.den)) k]
  exact congrArg some hq

theorem pyStr_chars {q : ℚ} : ∀ c ∈ pyStr q, isWsPy c = false ∧ c ≠ '\n' := by
  intro c hc
  rcases hdec : decExp q with _ | k
  · simp only [pyStr, hdec, List.not_mem_nil] at hc
  · simp only [pyStr, hdec, List.mem_append, List.mem_cons] at hc
    rcases hc with (hc | hc) | hc | hc
    · by_cases hn : q.num < 0
      · rw [if_pos hn] at hc
        simp only [List.mem_singleton] at hc
        subst hc
        decide
      · rw [if_neg hn] at hc
        simp at hc
    · exact ⟨(mapped_digit_facts c hc).2.1, (mapped_digit_facts c hc).2.2.1⟩
    · subst hc
      decide
    · by_cases hk : k = 0
      · rw [if_pos hk] at hc
        simp only [List.mem_singleton] at hc
        subst hc
        decide
      · rw [if_neg hk] at hc
        exact ⟨(mapped_digit_facts c hc).2.1, (mapped_digit_facts c hc).2.2.1⟩

theorem pyStr_ne_nil {q : ℚ} {k : ℕ} (h : decExp q = some k) : pyStr q ≠ [] := by
  simp only [pyStr, h]
  simp

theorem rstripNl_append_newline (X : Str) : rstripNl (X ++ ['\n']) = rstripNl X := by
  unfold rstripNl
  rw [List.reverse_append]
  simp [List.dropWhile]

theorem rstripNl_snoc_of_ne {X : Str} {c : Char} (hc : c ≠ '\n') :
    rstripNl (X ++ [c]) = X ++ [c] := by
  unfold rstripNl
  rw [List.reverse_append]
  simp [List.dropWhile, hc]

theorem row_no_nl {a b c : ℚ} :
    ∀ x ∈ pyStr a ++ '\t' :: (pyStr b ++ '\t' :: pyStr c), x ≠ '\n' := by
  intro x hx
  simp only [List.mem_append, List.mem_cons] at hx
  rcases hx with hx | hx | hx | hx | hx
  · exact (pyStr_chars x hx).2
  · subst hx; decide
  · exact (pyStr_chars x hx).2
  · subst hx; decide
  · exact (pyStr_chars x hx).2

theorem row_split {a b c : ℚ} {ka kb kc : ℕ} (ha : decExp a = some ka)
    (hb : decExp b = some kb) (hc : decExp c = some kc) :
    splitWs (pyStr a ++ '\t' :: (pyStr b ++ '\t' :: pyStr c)) =
      [pyStr a, pyStr b, pyStr c] :=
  splitWs_three_words (fun x hx => (pyStr_chars x hx).1)
    (fun x hx => (pyStr_chars x hx).1) (fun x hx => (pyStr_chars x hx).1)
    (pyStr_ne_nil ha) (pyStr_ne_nil hb) (pyStr_ne_nil hc)

theorem row_parse {a b c : ℚ} {ka kb kc : ℕ} (ha : decExp a = some ka)
    (hb : decExp b = some kb) (hc : decExp c = some kc) :
    (splitWs (pyStr a ++ '\t' :: (pyStr b ++ '\t' :: pyStr c))).map parseFloat =
      [some a, some b, some c] := by
  rw [row_split ha hb hc]
  simp [parseFloat_pyStr ha, parseFloat_pyStr hb, parseFloat_pyStr hc]

theorem splitNl_format_three {R1 R2 R3 : Str}
    (h1 : ∀ c ∈ R1, c ≠ '\n') (h2 : ∀ c ∈ R2, c ≠ '\n')
    (h3 : ∀ c ∈ R3, c ≠ '\n') (hne3 : R3 ≠ []) :
    splitNl (rstripNl (R1 ++ ['\n'] ++ (R2 ++ ['\n'] ++ (R3 ++ ['\n'])))) =
      [R1, R2, R3] := by
  obtain ⟨W, c9, rfl⟩ : ∃ W c9, R3 = W ++ [c9] := by
    rcases List.eq_nil_or_concat R3 with hnil | ⟨L, b, hconc⟩
    · exact absurd hnil hne3
    · exact ⟨L, b, by simpa [List.concat_eq_append] using hconc⟩
  have hc9 : c9 ≠ '\n' := h3 c9 (by simp)
  have hrw : R1 ++ ['\n'] ++ (R2 ++ ['\n'] ++ ((W ++ [c9]) ++ ['\n']))
      = ((R1 ++ '\n' :: (R2 ++ '\n' :: W)) ++ [c9]) ++ ['\n'] := by
    simp [List.append_assoc]
  rw [hrw, rstripNl_append_newline, rstripNl_snoc_of_ne hc9]
  have hrw2 : (R1 ++ '\n' :: (R2 ++ '\n' :: W)) ++ [c9]
      = R1 ++ '\n' :: (R2 ++ '\n' :: (W ++ [c9])) := by
    simp [List.append_assoc]
  rw [hrw2, splitNl_append_nl _ h1, splitNl_append_nl _ h2, splitNl_of_no_nl h3]

theorem format_array_rows (r1 r2 r3 : ℚ × ℚ × ℚ) :
    format_array [r1, r2, r3] =
      rstripNl ((pyStr r1.1 ++ '\t' :: (pyStr r1.2.1 ++ '\t' :: pyStr r1.2.2)) ++ ['\n'] ++
        ((pyStr r2.1 ++ '\t' :: (pyStr r2.2.1 ++ '\t' :: pyStr r2.2.2)) ++ ['\n'] ++
          ((pyStr r3.1 ++ '\t' :: (pyStr r3.2.1 ++ '\t' :: pyStr r3.2.2)) ++ ['\n']))) := by
  simp [format_array, formatRow, List.append_assoc]

theorem foldl_gcdZ_dvd (rest : List ℤ) (c : ℤ) :
    (rest.foldl gcdZ c) ∣ c ∧ ∀ x ∈ rest, (rest.foldl gcdZ c) ∣ x := by
  induction rest generalizing c with
  | nil => simp
  | cons r t ih =>
    simp only [List.foldl_cons]
    obtain ⟨h1, h2⟩ := ih (gcdZ c r)
    refine ⟨h1.trans Int.gcd_dvd_left, ?_⟩
    intro x hx
    rcases List.mem_cons.mp hx with rfl | hx
    · exact h1.trans Int.gcd_dvd_right
    · exact h2 x hx

theorem dvd_foldl_gcdZ (rest : List ℤ) (c d : ℤ) (hc : d ∣ c)
    (h : ∀ x ∈ rest, d ∣ x) : d ∣ rest.foldl gcdZ c := by
  induction rest generalizing c with
  | nil => simpa
  | cons r t ih =>
    simp only [List.foldl_cons]
    exact ih (gcdZ c r) (Int.dvd_gcd hc (h r (by simp)))
      (fun x hx => h x (by simp [hx]))

theorem foldl_gcdZ_pos (rest : List ℤ) (c : ℤ) (hc : 0 < c) :
    0 < rest.foldl gcdZ c := by
  induction rest generalizing c with
  | nil => simpa
  | cons r t ih =>
    simp only [List.foldl_cons]
    apply ih
    have hne : Int.gcd c r ≠ 0 := by
      intro h0
      rw [Int.gcd_eq_zero_iff] at h0
      omega
    unfold gcdZ
    exact_mod_cast Nat.pos_of_ne_zero hne

theorem xtbev_foldl (lat : Mat3) (rnum : ℤ) (engine : ℝ → ℝ) (sfs : List ℝ)
    (acc : List ℝ × List ℝ) :
    sfs.foldl (xtbevStep lat rnum engine) acc =
      (acc.1 ++ sfs.map (fun sf => unit_vol lat * sf),
       acc.2 ++ sfs.map (fun sf => engine sf / (rnum : ℝ))) := by
  induction sfs generalizing acc with
  | nil => simp
  | cons s t ih =>
    simp only [List.foldl_cons, List.map_cons]
    rw [ih]
    simp [xtbevStep]

theorem mapOpt_none_of_mem {f : α → Option β} {l : List α} {x : α}
    (hx : x ∈ l) (hf : f x = none) : mapOpt f l = none := by
  induction l with
  | nil => simp at hx
  | cons a t ih =>
    rcases List.mem_cons.mp hx with rfl | hx2
    · simp [mapOpt, hf]
    · cases hfa : f a
      · simp [mapOpt, hfa]
      · simp [mapOpt, hfa, ih hx2]

theorem mapOpt_cons_eq {f : α → Option β} {a : α} {t : List α} {b : β}
    (ha : f a = some b) :
    mapOpt f (a :: t) = (mapOpt f t).map (fun bs => b :: bs) := by
  cases ht : mapOpt f t <;> simp [mapOpt, ha, ht]

theorem not_ws_of_digit {c : Char} (hd : c.isDigit = true) : isWsPy c = false := by
  cases hw : isWsPy c
  · rfl
  · exfalso
    unfold isWsPy at hw
    simp only [Bool.or_eq_true, decide_eq_true_eq] at hw
    rcases hw with ((((h | h) | h) | h) | h) | h <;> subst h <;>
      exact absurd hd (by decide)

theorem ne_minus_of_digit {c : Char} (hd : c.isDigit = true) : c ≠ '-' := by
  intro h
  subst h
  exact absurd hd (by decide)

theorem scanTE_skip {pre rest : Str}
    (h : ∀ i < pre.length, matchAt (List.drop i (pre ++ rest)) = none) :
    scanTE (pre ++ rest) = scanTE rest := by
  induction pre with
  | nil => simp
  | cons c p ih =>
    have h0 : matchAt (c :: (p ++ rest)) = none := by
      simpa using h 0 (by simp)
    have hrec : ∀ i < p.length, matchAt (List.drop i (p ++ rest)) = none := by
      intro i hi
      simpa using h (i + 1) (by simpa using hi)
    have hstep : scanTE (c :: (p ++ rest)) = scanTE (p ++ rest) := by
      simp [scanTE, h0]
    rw [List.cons_append, hstep, ih hrec]

theorem scanTE_found {s : Str} {v : ℚ} (h : matchAt s = some v) :
    scanTE s = some v := by
  cases s with
  | nil =>
    rw [show matchAt [] = none from by decide] at h
    exact Option.noConfusion h
  | cons c rest => simp [scanTE, h]

theorem scanTE_none_of_no_match {s : Str}
    (h : ∀ i, matchAt (List.drop i s) = none) : scanTE s = none := by
  induction s with
  | nil => rfl
  | cons c rest ih =>
    have h0 : matchAt (c :: rest) = none := by simpa using h 0
    have hrec : ∀ i, matchAt (List.drop i rest) = none := by
      intro i
      simpa using h (i + 1)
    simp [scanTE, h0, ih hrec]

theorem hasPfx_exists {p s : Str} (h : hasPfx p s = true) : ∃ t, s = p ++ t := by
  induction p generalizing s with
  | nil => exact ⟨s, rfl⟩
  | cons a ps ih =>
    cases s with
    | nil => simp [hasPfx] at h
    | cons c cs =>
      simp only [hasPfx, Bool.and_eq_true, decide_eq_true_eq] at h
      obtain ⟨rfl, h2⟩ := h
      obtain ⟨t, rfl⟩ := ih h2
      exact ⟨t, rfl⟩

theorem tryNumDigits_sound {neg : Bool} {s2 : Str} {v : ℚ}
    (h : tryNumDigits neg s2 = some v) :
    ∃ d1 d2 post, s2 = d1 ++ '.' :: (d2 ++ post) ∧
      d1 ≠ [] ∧ (∀ c ∈ d1, c.isDigit = true) ∧
      d2 ≠ [] ∧ (∀ c ∈ d2, c.isDigit = true) := by
  simp only [tryNumDigits] at h
  by_cases h1 : s2.takeWhile Char.isDigit = []
  · rw [if_pos h1] at h
    exact absurd h (by simp)
  · rw [if_neg h1] at h
    by_cases h2 : (s2.dropWhile Char.isDigit).head? = some '.'
    · rw [if_pos h2] at h
      by_cases h3 : (s2.dropWhile Char.isDigit).tail.takeWhile Char.isDigit = []
      · rw [if_pos h3] at h
        exact absurd h (by simp)
      · have hdot : s2.dropWhile Char.isDigit
            = '.' :: (s2.dropWhile Char.isDigit).tail := by
          cases hd : s2.dropWhile Char.isDigit with
          | nil =>
            rw [hd] at h2
            simp at h2
          | cons x xs =>
            rw [hd] at h2
            simp only [List.head?_cons, Option.some.injEq] at h2
            rw [h2]
            rfl
        refine ⟨s2.takeWhile Char.isDigit,
          (s2.dropWhile Char.isDigit).tail.takeWhile Char.isDigit,
          (s2.dropWhile Char.isDigit).tail.dropWhile Char.isDigit, ?_, h1,
          fun c hc => List.mem_takeWhile_imp hc, h3,
          fun c hc => List.mem_takeWhile_imp hc⟩
        conv_lhs => rw [← List.takeWhile_append_dropWhile Char.isDigit s2, hdot]
        exact congrArg (fun x => s2.takeWhile Char.isDigit ++ '.' :: x)
          (List.takeWhile_append_dropWhile Char.isDigit
            (s2.dropWhile Char.isDigit).tail).symm
    · rw [if_neg h2] at h
      exact absurd h (by simp)

theorem tryNumSign_sound {s1 : Str} {v : ℚ} (h : tryNumSign s1 = some v) :
    ∃ neg s2, s1 = signChars neg ++ s2 ∧ tryNumDigits neg s2 = some v := by
  simp only [tryNumSign] at h
  by_cases hm : s1.head? = some '-'
  · rw [if_pos hm] at h
    refine ⟨true, s1.tail, ?_, h⟩
    cases s1 with
    | nil => simp at hm
    | cons c r =>
      simp only [List.head?_cons, Option.some.injEq] at hm
      rw [hm]
      rfl
  · rw [if_neg hm] at h
    exact ⟨false, s1, by simp [signChars], h⟩

theorem tryNum_sound {s : Str} {v : ℚ} (h : tryNum s = some v) :
    ∃ ws neg d1 d2 post,
      s = ws ++ (signChars neg ++ (d1 ++ '.' :: (d2 ++ post))) ∧
      ws ≠ [] ∧ (∀ c ∈ ws, isWsPy c = true) ∧
      d1 ≠ [] ∧ (∀ c ∈ d1, c.isDigit = true) ∧
      d2 ≠ [] ∧ (∀ c ∈ d2, c.isDigit = true) := by
  simp only [tryNum] at h
  by_cases hws : s.takeWhile isWsPy = []
  · rw [if_pos hws] at h
    exact absurd h (by simp)
  · rw [if_neg hws] at h
    obtain ⟨neg, s2, hsplit, hd⟩ := tryNumSign_sound h
    obtain ⟨d1, d2, post, hs2, hd1ne, hd1, hd2ne, hd2⟩ := tryNumDigits_sound hd
    refine ⟨s.takeWhile isWsPy, neg, d1, d2, post, ?_, hws,
      fun c hc => List.mem_takeWhile_imp hc, hd1ne, hd1, hd2ne, hd2⟩
    conv_lhs => rw [← List.takeWhile_append_dropWhile isWsPy s]
    rw [hsplit, hs2]

theorem tryNumDigits_spec (neg : Bool) {d1 d2 post : Str}
    (hd1ne : d1 ≠ []) (hd1 : ∀ c ∈ d1, c.isDigit = true)
    (hd2ne : d2 ≠ []) (hd2 : ∀ c ∈ d2, c.isDigit = true)
    (hpost : ∀ a, post.head? = some a → a.isDigit = false) :
    tryNumDigits neg (d1 ++ '.' :: (d2 ++ post)) = some (numVal neg d1 d2) := by
  have hd1_take : (d1 ++ '.' :: (d2 ++ post)).takeWhile Char.isDigit = d1 := by
    rw [takeWhile_append_all _ hd1, takeWhile_eq_nil_head (by
      intro a ha
      simp only [List.head?_cons, Option.some.injEq] at ha
      subst ha
      decide), List.append_nil]
  have hd1_drop : (d1 ++ '.' :: (d2 ++ post)).dropWhile Char.isDigit
      = '.' :: (d2 ++ post) := by
    rw [dropWhile_append_all _ hd1, dropWhile_eq_self_head (by
      intro a ha
      simp only [List.head?_cons, Option.some.injEq] at ha
      subst ha
      decide)]
  have hd2_take : (d2 ++ post).takeWhile Char.isDigit = d2 := by
    rw [takeWhile_append_all _ hd2, takeWhile_eq_nil_head hpost, List.append_nil]
  simp only [tryNumDigits, hd1_take, hd1_drop, List.head?_cons, List.tail_cons,
    hd2_take, if_neg hd1ne, if_neg hd2ne]
  rw [if_pos trivial]

theorem tryNumSign_minus (R : Str) : tryNumSign ('-' :: R) = tryNumDigits true R := by
  simp [tryNumSign]

theorem tryNumSign_nominus {R : Str} (h : ∀ a, R.head? = some a → a ≠ '-') :
    tryNumSign R = tryNumDigits false R := by
  unfold tryNumSign
  rw [if_neg]
  intro hR
  cases R with
  | nil => simp at hR
  | cons c rest =>
    rw [List.head?_cons, Option.some.injEq] at hR
    exact h c rfl hR

theorem tryNum_ws {ws R : Str} (hwsne : ws ≠ []) (hws : ∀ c ∈ ws, isWsPy c = true)
    (hR : ∀ a, R.head? = some a → isWsPy a = false) :
    tryNum (ws ++ R) = tryNumSign R := by
  have hws_take : (ws ++ R).takeWhile isWsPy = ws := by
    rw [takeWhile_append_all _ hws, takeWhile_eq_nil_head hR, List.append_nil]
  have hws_drop : (ws ++ R).dropWhile isWsPy = R := by
    rw [dropWhile_append_all _ hws, dropWhile_eq_self_head hR]
  simp only [tryNum, hws_take, hws_drop, if_neg hwsne]

theorem tryNum_spec (neg : Bool) {ws d1 d2 post : Str}
    (hwsne : ws ≠ []) (hws : ∀ c ∈ ws, isWsPy c = true)
    (hd1ne : d1 ≠ []) (hd1 : ∀ c ∈ d1, c.isDigit = true)
    (hd2ne : d2 ≠ []) (hd2 : ∀ c ∈ d2, c.isDigit = true)
    (hpost : ∀ a, post.head? = some a → a.isDigit = false) :
    tryNum (ws ++ (signChars neg ++ (d1 ++ '.' :: (d2 ++ post)))) =
      some (numVal neg d1 d2) := by
  obtain ⟨e0, d1t, rfl⟩ : ∃ e0 d1t, d1 = e0 :: d1t := List.exists_cons_of_ne_nil hd1ne
  have he0 : e0.isDigit = true := hd1 e0 (by simp)
  cases neg
  · rw [show signChars false ++ ((e0 :: d1t) ++ '.' :: (d2 ++ post))
        = (e0 :: d1t) ++ '.' :: (d2 ++ post) from by simp [signChars]]
    rw [tryNum_ws hwsne hws (by
      intro a ha
      simp only [List.cons_append, List.head?_cons, Option.some.injEq] at ha
      subst ha
      exact not_ws_of_digit he0)]
    rw [tryNumSign_nominus (by
      intro a ha
      simp only [List.cons_append, List.head?_cons, Option.some.injEq] at ha
      subst ha
      exact ne_minus_of_digit he0)]
    exact tryNumDigits_spec false hd1ne hd1 hd2ne hd2 hpost
  · rw [show signChars true ++ ((e0 :: d1t) ++ '.' :: (d2 ++ post))
        = '-' :: ((e0 :: d1t) ++ '.' :: (d2 ++ post)) from by simp [signChars]]
    rw [tryNum_ws hwsne hws (by
      intro a ha
      rw [List.head?_cons, Option.some.injEq] at ha
      subst ha
      decide)]
    rw [tryNumSign_minus]
    exact tryNumDigits_spec true hd1ne hd1 hd2ne hd2 hpost

theorem hasPfx_append (p s : Str) : hasPfx p (p ++ s) = true := by
  induction p with
  | nil => rfl
  | cons c cs ih => simp [hasPfx, ih]

theorem tryNumDigits_ne_none {d1 d2 post : Str} (neg : Bool) (hd1ne : d1 ≠ [])
    (hd1 : ∀ c ∈ d1, c.isDigit = true) (hd2ne : d2 ≠ [])
    (hd2 : ∀ c ∈ d2, c.isDigit = true) :
    tryNumDigits neg (d1 ++ '.' :: (d2 ++ post)) ≠ none := by
  have hd1_take : (d1 ++ '.' :: (d2 ++ post)).takeWhile Char.isDigit = d1 := by
    rw [takeWhile_append_all _ hd1, takeWhile_eq_nil_head (by
      intro a ha
      simp only [List.head?_cons, Option.some.injEq] at ha
      subst ha
      decide), List.append_nil]
  have hd1_drop : (d1 ++ '.' :: (d2 ++ post)).dropWhile Char.isDigit
      = '.' :: (d2 ++ post) := by
    rw [dropWhile_append_all _ hd1, dropWhile_eq_self_head (by
      intro a ha
      simp only [List.head?_cons, Option.some.injEq] at ha
      subst ha
      decide)]
  obtain ⟨e2, d2t, rfl⟩ : ∃ e2 d2t, d2 = e2 :: d2t := List.exists_cons_of_ne_nil hd2ne
  have he2 : e2.isDigit = true := hd2 e2 (by simp)
  have hd2_take : ((e2 :: d2t) ++ post).takeWhile Char.isDigit
      = e2 :: (d2t ++ post).takeWhile Char.isDigit := by
    rw [List.cons_append, List.takeWhile_cons, if_pos he2]
  simp only [tryNumDigits, hd1_take, hd1_drop, List.head?_cons, List.tail_cons,
    hd2_take, if_neg hd1ne]
  rw [if_pos trivial, if_neg (by simp)]
  simp

theorem matchAt_of_shape {ws d1 d2 post : Str} (neg : Bool)
    (hwsne : ws ≠ []) (hws : ∀ c ∈ ws, isWsPy c = true)
    (hd1ne : d1 ≠ []) (hd1 : ∀ c ∈ d1, c.isDigit = true)
    (hd2ne : d2 ≠ []) (hd2 : ∀ c ∈ d2, c.isDigit = true) :
    matchAt (energyLabel ++ (ws ++ (signChars neg ++
      (d1 ++ '.' :: (d2 ++ post))))) ≠ none := by
  rw [matchAt, if_pos (hasPfx_append _ _), List.drop_left]
  obtain ⟨e0, d1t, rfl⟩ : ∃ e0 d1t, d1 = e0 :: d1t := List.exists_cons_of_ne_nil hd1ne
  have he0 : e0.isDigit = true := hd1 e0 (by simp)
  cases neg
  · rw [show signChars false ++ ((e0 :: d1t) ++ '.' :: (d2 ++ post))
        = (e0 :: d1t) ++ '.' :: (d2 ++ post) from by simp [signChars]]
    rw [tryNum_ws hwsne hws (by
      intro a ha
      simp only [List.cons_append, List.head?_cons, Option.some.injEq] at ha
      subst ha
      exact not_ws_of_digit he0)]
    rw [tryNumSign_nominus (by
      intro a ha
      simp only [List.cons_append, List.head?_cons, Option.some.injEq] at ha
      subst ha
      exact ne_minus_of_digit he0)]
    exact tryNumDigits_ne_none false hd1ne hd1 hd2ne hd2
  · rw [show signChars true ++ ((e0 :: d1t) ++ '.' :: (d2 ++ post))
        = '-' :: ((e0 :: d1t) ++ '.' :: (d2 ++ post)) from by simp [signChars]]
    rw [tryNum_ws hwsne hws (by
      intro a ha
      rw [List.head?_cons, Option.some.injEq] at ha
      subst ha
      decide)]
    rw [tryNumSign_minus]
    exact tryNumDigits_ne_none true hd1ne hd1 hd2ne hd2

theorem first_match_of_no_matchAt (text : Str) (n : ℕ)
    (h : ∀ i < n, matchAt (List.drop i text) = none) :
    ∀ (pre2 ws2 d1b d2b post2 : Str) (neg2 : Bool),
      text = pre2 ++ (energyLabel ++ (ws2 ++ (signChars neg2 ++
        (d1b ++ '.' :: (d2b ++ post2))))) →
      ws2 ≠ [] → (∀ c ∈ ws2, isWsPy c = true) →
      d1b ≠ [] → (∀ c ∈ d1b, c.isDigit = true) →
      d2b ≠ [] → (∀ c ∈ d2b, c.isDigit = true) →
      n ≤ pre2.length := by
  intro pre2 ws2 d1b d2b post2 neg2 heq hws2ne hws2 hd1bne hd1b hd2bne hd2b
  by_contra hlt
  push_neg at hlt
  have hnone := h pre2.length hlt
  rw [heq, List.drop_left] at hnone
  exact matchAt_of_shape neg2 hws2ne hws2 hd1bne hd1b hd2bne hd2b hnone

theorem cbrt_cube {s : ℝ} (hs : 0 < s) : cbrt s ^ (3:ℕ) = s := by
  rw [cbrt, ← Real.rpow_natCast (s ^ ((1:ℝ)/3)) 3, ← Real.rpow_mul hs.le]
  norm_num

theorem unit_vol_resize (M : Mat3) (s : ℝ) :
    unit_vol (resize_lat M s) = cbrt s ^ (3:ℕ) * unit_vol M := by
  simp only [unit_vol, resize_lat, cross3, dot3, Matrix.cons_val_zero,
    Matrix.cons_val_one, Matrix.head_cons, Matrix.cons_val_two, Matrix.tail_cons]
  ring

theorem unit_vol_eq_det (M : Mat3) : unit_vol M = (Matrix.of M).det := by
  rw [Matrix.det_fin_three]
  simp only [unit_vol, dot3, cross3, Matrix.of_apply, Matrix.cons_val_zero,
    Matrix.cons_val_one, Matrix.head_cons, Matrix.cons_val_two, Matrix.tail_cons]
  ring

theorem pyPowThird_im_pos {s : ℝ} (hs : s < 0) : 0 < (pyPowThird s).im := by
  have hs0 : (s:ℂ) ≠ 0 := Complex.ofReal_ne_zero.mpr hs.ne
  rw [pyPowThird, Complex.cpow_def_of_ne_zero hs0]
  have hlog : Complex.log (s:ℂ) = (Real.log |s| : ℝ) + Real.pi * Complex.I := by
    rw [Complex.log, Complex.abs_ofReal, Complex.arg_ofReal_of_neg hs]
  rw [hlog, Complex.exp_im]
  have him : (((Real.log |s| : ℝ) + Real.pi * Complex.I) * ((1:ℂ)/3)).im
      = Real.pi / 3 := by
    simp [Complex.mul_im]
    ring
  have hre : (((Real.log |s| : ℝ) + Real.pi * Complex.I) * ((1:ℂ)/3)).re
      = Real.log |s| / 3 := by
    simp [Complex.mul_re]
    ring
  rw [him, hre]
  apply mul_pos (Real.exp_pos _)
  apply Real.sin_pos_of_pos_of_lt_pi
  · positivity
  · linarith [Real.pi_pos]

theorem pyPowThird_zero : pyPowThird 0 = 0 := by
  rw [pyPowThird, Complex.ofReal_zero]
  exact Complex.zero_cpow (by norm_num)

/-- Claim C1: for every lattice matrix `M` and scale factor `s > 0`,
`resize_lat M s` multiplies every component uniformly by the cube root of
`s`, and the scalar triple product volume of the scaled matrix is exactly
`s` times the volume of `M`. -/
theorem c1_resize_lat_scales_volume (M : Mat3) (s : ℝ) (hs : 0 < s) :
    (∀ i j, resize_lat M s i j = s ^ ((1:ℝ)/3) * M i j) ∧
    unit_vol (resize_lat M s) = s * unit_vol M := by
  constructor
  · intro i j
    rfl
  · rw [unit_vol_resize, cbrt_cube hs]

/-- Witness for C1 at the all-ones matrix and scale factor 8. -/
theorem c1_witness :
    (0:ℝ) < 8 ∧
    ((∀ i j, resize_lat (fun _ _ => 1) 8 i j =
        (8:ℝ) ^ ((1:ℝ)/3) * (fun (_ _ : Fin 3) => (1:ℝ)) i j) ∧
      unit_vol (resize_lat (fun _ _ => 1) 8) = 8 * unit_vol (fun _ _ => 1)) :=
  ⟨by norm_num, c1_resize_lat_scales_volume (fun _ _ => 1) 8 (by norm_num)⟩

/-- Claim C5 counterexample: `ev_bulk` does not return the fit result of
the native-basis data; it fits the energies after converting them by
`Hartree / eV`, so with a fit that reports its input energy the returned
tuple differs from the fit of the native data. -/
theorem c5_counterexample : (ev_bulk fitHead [1] [1]).1 ≠ fitHead [1] [1] := by
  intro h
  have h2 := congrArg (fun t : ℚ × ℚ × ℚ => t.2.1) h
  simp only [ev_bulk, fitHead, List.map_cons, List.map_nil, List.headI] at h2
  rw [Hartree, eV] at h2
  norm_num at h2

/-- Claim C5 amended: `ev_bulk` returns the tuple produced by the fit
unchanged — but the fit is applied to energies converted by `Hartree / eV`
(the eV basis), not the native energies — and the separately produced
printed value is the bulk modulus converted to GPa by `B / kJ * 1.0e24`. -/
theorem c5_returns_fit_of_converted (fit : List ℚ → List ℚ → ℚ × ℚ × ℚ)
    (volumes energies : List ℚ) :
    (ev_bulk fit volumes energies).1 =
      fit volumes (energies.map (fun e => e * Hartree / eV)) ∧
    (ev_bulk fit volumes energies).2 =
      (fit volumes (energies.map (fun e => e * Hartree / eV))).2.2 / kJ *
        10 ^ (24:ℕ) := by
  exact ⟨rfl, rfl⟩

/-- Claim C7 counterexample: at scale factor `-1`, `resize_lat` does not
fail; it returns a complex-valued matrix (nonzero imaginary part) to its
caller. -/
theorem c7_counterexample : (resize_latC (fun _ _ => 1) (-1) 0 0).im ≠ 0 := by
  have h : 0 < (pyPowThird (-1)).im := pyPowThird_im_pos (by norm_num)
  simp only [resize_latC, Complex.ofReal_one, mul_one]
  exact h.ne'

/-- Claim C7 amended: for a negative scale factor the Python power returns
a principal complex root, so `resize_lat` silently returns a complex-valued
matrix (positive imaginary part wherever the entry is positive); for scale
factor zero it silently returns the zero matrix. Neither case fails. -/
theorem c7_negative_scale_complex (M : Mat3) (s : ℝ) :
    (s < 0 → 0 < M 0 0 → 0 < (resize_latC M s 0 0).im) ∧
    (s = 0 → ∀ i j, resize_latC M s i j = 0) := by
  constructor
  · intro hs hM
    simp only [resize_latC, Complex.mul_im, Complex.ofReal_re, Complex.ofReal_im,
      mul_zero, zero_add]
    exact mul_pos (pyPowThird_im_pos hs) hM
  · intro hs i j
    subst hs
    simp [resize_latC, pyPowThird_zero]

/-- Witness for the amended C7 at the all-ones matrix and scale factor -1. -/
theorem c7_witness :
    (-1:ℝ) < 0 ∧ (0:ℝ) < (fun (_ _ : Fin 3) => (1:ℝ)) 0 0 ∧
    0 < (resize_latC (fun _ _ => 1) (-1) 0 0).im :=
  ⟨by norm_num, by norm_num,
    (c7_negative_scale_complex (fun _ _ => 1) (-1)).1 (by norm_num) (by norm_num)⟩

/-- Claim C2: for every lattice matrix, species counts (nonempty,
positive) and finite scale-factor sequence, the curve driver `xtbev` (with
the engine invocation as a deterministic oracle) returns two lists of
length `sfs.length` in input order: the i-th volume is `sfs[i]` times the
triple product of the original lattice, and the i-th energy is the
oracle energy divided by the repeat-unit count computed once before the
loop. -/
theorem c2_curve_driver (lat : Mat3) (counts : List ℤ) (engine : ℝ → ℝ)
    (sfs : List ℝ) (hne : counts ≠ []) (hpos : ∀ c ∈ counts, 0 < c) :
    ∃ rnum volumes energies,
      find_repeat_unit counts = .ok rnum ∧ 0 < rnum ∧
      xtbev lat counts engine sfs = .ok (volumes, energies) ∧
      volumes.length = sfs.length ∧ energies.length = sfs.length ∧
      volumes = sfs.map (fun sf => unit_vol lat * sf) ∧
      energies = sfs.map (fun sf => engine sf / (rnum : ℝ)) := by
  obtain ⟨c, rest, rfl⟩ := List.exists_cons_of_ne_nil hne
  have hfru : find_repeat_unit (c :: rest) = .ok (rest.foldl gcdZ c) := rfl
  have hx : xtbev lat (c :: rest) engine sfs =
      .ok (sfs.map (fun sf => unit_vol lat * sf),
        sfs.map (fun sf => engine sf / ((rest.foldl gcdZ c : ℤ) : ℝ))) := by
    simp only [xtbev, hfru]
    rw [xtbev_foldl]
    simp
  exact ⟨rest.foldl gcdZ c, _, _, hfru, foldl_gcdZ_pos rest c (hpos c (by simp)),
    hx, by simp, by simp, rfl, rfl⟩

/-- Witness for C2 at the all-ones lattice, counts [6, 9], the identity
engine oracle and scale factors [1, 2]. -/
theorem c2_witness :
    (([6, 9] : List ℤ) ≠ [] ∧ ∀ c ∈ ([6, 9] : List ℤ), 0 < c) ∧
    (∃ rnum volumes energies,
      find_repeat_unit [6, 9] = .ok rnum ∧ 0 < rnum ∧
      xtbev (fun _ _ => 1) [6, 9] (fun x => x) [1, 2] = .ok (volumes, energies) ∧
      volumes.length = ([1, 2] : List ℝ).length ∧
      energies.length = ([1, 2] : List ℝ).length ∧
      volumes = ([1, 2] : List ℝ).map (fun sf => unit_vol (fun _ _ => 1) * sf) ∧
      energies = ([1, 2] : List ℝ).map (fun sf => (fun x : ℝ => x) sf / (rnum : ℝ))) :=
  ⟨⟨by decide, by decide⟩,
    c2_curve_driver (fun _ _ => 1) [6, 9] (fun x => x) [1, 2] (by decide) (by decide)⟩

/-- Claim C8: the repeat-unit counter is the greatest common divisor of a
nonempty sequence of positive species counts, computed by iterative gcd
reduction: it is positive, divides every count, and every common divisor
divides it; `[4]` yields 4, `[6, 9]` yields 3, `[7]` yields 7; the empty
sequence fails rather than returning 1. -/
theorem c8_find_repeat_unit :
    (∀ counts : List ℤ, counts ≠ [] → (∀ c ∈ counts, 0 < c) →
      ∃ g, find_repeat_unit counts = .ok g ∧ 0 < g ∧
        (∀ c ∈ counts, g ∣ c) ∧ (∀ d : ℤ, (∀ c ∈ counts, d ∣ c) → d ∣ g)) ∧
    find_repeat_unit [4] = .ok 4 ∧ find_repeat_unit [6, 9] = .ok 3 ∧
    find_repeat_unit [7] = .ok 7 ∧ isErr (find_repeat_unit []) = true := by
  refine ⟨?_, rfl, ?_, rfl, rfl⟩
  · intro counts hne hpos
    obtain ⟨c, rest, rfl⟩ := List.exists_cons_of_ne_nil hne
    refine ⟨rest.foldl gcdZ c, rfl, foldl_gcdZ_pos rest c (hpos c (by simp)),
      ?_, ?_⟩
    · intro x hx
      rcases List.mem_cons.mp hx with rfl | hx
      · exact (foldl_gcdZ_dvd rest x).1
      · exact (foldl_gcdZ_dvd rest c).2 x hx
    · intro d hd
      exact dvd_foldl_gcdZ rest c d (hd c (by simp)) (fun x hx => hd x (by simp [hx]))
  · simp only [find_repeat_unit, List.foldl_cons, List.foldl_nil, gcdZ]
    norm_num

/-- Witness for C8 at the counts [6, 9]. -/
theorem c8_witness :
    (([6, 9] : List ℤ) ≠ [] ∧ ∀ c ∈ ([6, 9] : List ℤ), 0 < c) ∧
    (∃ g, find_repeat_unit [6, 9] = .ok g ∧ 0 < g ∧
      (∀ c ∈ ([6, 9] : List ℤ), g ∣ c) ∧
      (∀ d : ℤ, (∀ c ∈ ([6, 9] : List ℤ), d ∣ c) → d ∣ g)) :=
  ⟨⟨by decide, by decide⟩, c8_find_repeat_unit.1 [6, 9] (by decide) (by decide)⟩

/-- Claim C10: `unit_vol` is the signed triple product (the determinant,
with no absolute value): on a negatively oriented lattice it is negative
even though the rows are linearly independent, and the curve driver then
reports a negative volume for every positive scale factor. -/
theorem c10_signed_volume (M : Mat3) (hdet : (Matrix.of M).det < 0) :
    unit_vol M < 0 ∧ LinearIndependent ℝ (fun i => Matrix.of M i) ∧
    (∀ (counts : List ℤ) (engine : ℝ → ℝ) (sfs : List ℝ) volumes energies,
      xtbev M counts engine sfs = .ok (volumes, energies) →
      (∀ sf ∈ sfs, 0 < sf) → ∀ v ∈ volumes, v < 0) := by
  have hvol : unit_vol M < 0 := by
    rw [unit_vol_eq_det]
    exact hdet
  refine ⟨hvol, ?_, ?_⟩
  · rw [Matrix.linearIndependent_rows_iff_isUnit, Matrix.isUnit_iff_isUnit_det]
    exact hdet.ne.isUnit
  · intro counts engine sfs volumes energies hx hsf v hv
    cases counts with
    | nil => simp [xtbev, find_repeat_unit] at hx
    | cons c rest =>
      have hfru : find_repeat_unit (c :: rest) = .ok (rest.foldl gcdZ c) := rfl
      simp only [xtbev, hfru] at hx
      rw [xtbev_foldl] at hx
      simp only [List.nil_append, Except.ok.injEq, Prod.mk.injEq] at hx
      obtain ⟨hvols, _⟩ := hx
      rw [← hvols] at hv
      obtain ⟨sf, hsfmem, rfl⟩ := List.mem_map.mp hv
      exact mul_neg_of_neg_of_pos hvol (hsf sf hsfmem)

/-- Witness for C10 at a left-handed lattice: the identity with its first
two rows swapped, determinant -1. -/
theorem c10_witness :
    (Matrix.of (![![0, 1, 0], ![1, 0, 0], ![0, 0, 1]] : Mat3)).det < 0 ∧
    (unit_vol (![![0, 1, 0], ![1, 0, 0], ![0, 0, 1]] : Mat3) < 0 ∧
      LinearIndependent ℝ
        (fun i => Matrix.of (![![0, 1, 0], ![1, 0, 0], ![0, 0, 1]] : Mat3) i) ∧
      (∀ (counts : List ℤ) (engine : ℝ → ℝ) (sfs : List ℝ) volumes energies,
        xtbev (![![0, 1, 0], ![1, 0, 0], ![0, 0, 1]] : Mat3) counts engine sfs =
          .ok (volumes, energies) →
        (∀ sf ∈ sfs, 0 < sf) → ∀ v ∈ volumes, v < 0)) := by
  have hdet : (Matrix.of (![![0, 1, 0], ![1, 0, 0], ![0, 0, 1]] : Mat3)).det < 0 := by
    rw [Matrix.det_fin_three]
    norm_num
  exact ⟨hdet, c10_signed_volume _ hdet⟩

/-- Claim C4: if the engine output contains `TOTAL ENERGY` followed by
whitespace and a signed decimal number, `interpret_xtb` returns the number
captured at the first such match (positions before it may hold the label
without a following number; the pattern simply fails there and the search
moves on); the text `TOTAL ENERGY   -123.456789` yields `-123.456789`; and
if the output admits no decomposition at all into some position followed by
the label, whitespace and a signed decimal number, extraction fails
(`none`, modelling the raised exception) and never yields a sentinel. -/
theorem c4_interpret_xtb :
    (∀ (pre ws d1 d2 post : Str) (neg : Bool),
      (∀ (pre2 ws2 d1b d2b post2 : Str) (neg2 : Bool),
        pre ++ (energyLabel ++ (ws ++ (signChars neg ++
          (d1 ++ '.' :: (d2 ++ post))))) =
          pre2 ++ (energyLabel ++ (ws2 ++ (signChars neg2 ++
            (d1b ++ '.' :: (d2b ++ post2))))) →
        ws2 ≠ [] → (∀ c ∈ ws2, isWsPy c = true) →
        d1b ≠ [] → (∀ c ∈ d1b, c.isDigit = true) →
        d2b ≠ [] → (∀ c ∈ d2b, c.isDigit = true) →
        pre.length ≤ pre2.length) →
      ws ≠ [] → (∀ c ∈ ws, isWsPy c = true) →
      d1 ≠ [] → (∀ c ∈ d1, c.isDigit = true) →
      d2 ≠ [] → (∀ c ∈ d2, c.isDigit = true) →
      (∀ a, post.head? = some a → a.isDigit = false) →
      interpret_xtb (pre ++ (energyLabel ++ (ws ++ (signChars neg ++
        (d1 ++ '.' :: (d2 ++ post)))))) = some (numVal neg d1 d2)) ∧
    interpret_xtb ("TOTAL ENERGY   -123.456789".data) =
      some (-(123456789:ℚ)/1000000) ∧
    (∀ s : Str,
      (¬ ∃ (pre ws d1 d2 post : Str) (neg : Bool),
        s = pre ++ (energyLabel ++ (ws ++ (signChars neg ++
          (d1 ++ '.' :: (d2 ++ post))))) ∧
        ws ≠ [] ∧ (∀ c ∈ ws, isWsPy c = true) ∧
        d1 ≠ [] ∧ (∀ c ∈ d1, c.isDigit = true) ∧
        d2 ≠ [] ∧ (∀ c ∈ d2, c.isDigit = true)) →
      interpret_xtb s = none) := by
  refine ⟨?_, ?_, ?_⟩
  · intro pre ws d1 d2 post neg hfirst hwsne hws hd1ne hd1 hd2ne hd2 hpost
    have hnomatch : ∀ i < pre.length, matchAt (List.drop i
        (pre ++ (energyLabel ++ (ws ++ (signChars neg ++
          (d1 ++ '.' :: (d2 ++ post))))))) = none := by
      intro i hi
      cases hm : matchAt (List.drop i (pre ++ (energyLabel ++ (ws ++
          (signChars neg ++ (d1 ++ '.' :: (d2 ++ post))))))) with
      | none => rfl
      | some w =>
        exfalso
        rw [matchAt] at hm
        by_cases hpfx : hasPfx energyLabel (List.drop i (pre ++ (energyLabel ++
            (ws ++ (signChars neg ++ (d1 ++ '.' :: (d2 ++ post)))))))
        · rw [if_pos hpfx] at hm
          obtain ⟨t, ht⟩ := hasPfx_exists hpfx
          rw [ht, List.drop_left] at hm
          obtain ⟨ws2, neg2, d1b, d2b, post2, hts, hws2ne, hws2, hd1bne, hd1b,
            hd2bne, hd2b⟩ := tryNum_sound hm
          have hdecomp : pre ++ (energyLabel ++ (ws ++ (signChars neg ++
              (d1 ++ '.' :: (d2 ++ post))))) =
              (pre ++ (energyLabel ++ (ws ++ (signChars neg ++
                (d1 ++ '.' :: (d2 ++ post)))))).take i ++
                (energyLabel ++ (ws2 ++ (signChars neg2 ++
                  (d1b ++ '.' :: (d2b ++ post2))))) := by
            conv_lhs => rw [← List.take_append_drop i (pre ++ (energyLabel ++
              (ws ++ (signChars neg ++ (d1 ++ '.' :: (d2 ++ post)))))), ht]
            rw [hts]
          have hle := hfirst _ _ _ _ _ _ hdecomp hws2ne hws2 hd1bne hd1b
            hd2bne hd2b
          rw [List.length_take] at hle
          omega
        · rw [if_neg hpfx] at hm
          exact Option.noConfusion hm
    rw [interpret_xtb, scanTE_skip hnomatch]
    apply scanTE_found
    rw [matchAt, if_pos (hasPfx_append _ _), List.drop_left]
    exact tryNum_spec neg hwsne hws hd1ne hd1 hd2ne hd2 hpost
  · have hdecomp : ("TOTAL ENERGY   -123.456789".data).drop energyLabel.length
        = "   ".data ++ (signChars true ++
            ("123".data ++ '.' :: ("456789".data ++ []))) := by
      decide
    have hm : matchAt ("TOTAL ENERGY   -123.456789".data)
        = some (numVal true ("123".data) ("456789".data)) := by
      rw [matchAt, if_pos (by decide), hdecomp]
      exact tryNum_spec true (by decide) (by decide) (by decide) (by decide)
        (by decide) (by decide) (by simp)
    rw [interpret_xtb, scanTE_found hm]
    congr 1
    rw [numVal, show charsVal ("123".data) = 123 from by decide,
      show charsVal ("456789".data) = 456789 from by decide,
      show ("456789".data).length = 6 from by decide]
    norm_num
  · intro s hno
    apply scanTE_none_of_no_match
    intro i
    cases hm : matchAt (List.drop i s) with
    | none => rfl
    | some w =>
      exfalso
      apply hno
      rw [matchAt] at hm
      by_cases hpfx : hasPfx energyLabel (List.drop i s)
      · rw [if_pos hpfx] at hm
        obtain ⟨t, ht⟩ := hasPfx_exists hpfx
        rw [ht, List.drop_left] at hm
        obtain ⟨ws2, neg2, d1b, d2b, post2, hts, hws2ne, hws2, hd1bne, hd1b,
          hd2bne, hd2b⟩ := tryNum_sound hm
        refine ⟨s.take i, ws2, d1b, d2b, post2, neg2, ?_, hws2ne, hws2,
          hd1bne, hd1b, hd2bne, hd2b⟩
        conv_lhs => rw [← List.take_append_drop i s, ht]
        rw [hts]
      · rw [if_neg hpfx] at hm
        exact Option.noConfusion hm

/-- Witness for C4 at a text whose first label occurrence is not followed
by a number, so the search skips it and captures 1.5 at the second. -/
theorem c4_witness :
    ((∀ i < ("TOTAL ENERGY x ".data : Str).length,
        matchAt (List.drop i ("TOTAL ENERGY x ".data ++ (energyLabel ++
          ("  ".data ++ (signChars false ++
            ("1".data ++ '.' :: ("5".data ++ []))))))) = none) ∧
      ("  ".data : Str) ≠ [] ∧ (∀ c ∈ ("  ".data : Str), isWsPy c = true) ∧
      ("1".data : Str) ≠ [] ∧ (∀ c ∈ ("1".data : Str), c.isDigit = true) ∧
      ("5".data : Str) ≠ [] ∧ (∀ c ∈ ("5".data : Str), c.isDigit = true)) ∧
    interpret_xtb ("TOTAL ENERGY x ".data ++ (energyLabel ++ ("  ".data ++
      (signChars false ++ ("1".data ++ '.' :: ("5".data ++ [])))))) =
      some (numVal false ("1".data) ("5".data)) := by
  refine ⟨⟨by decide, by decide, by decide, by decide, by decide, by decide,
    by decide⟩, ?_⟩
  exact c4_interpret_xtb.1 ("TOTAL ENERGY x ".data) ("  ".data) ("1".data)
    ("5".data) [] false
    (first_match_of_no_matchAt
      ("TOTAL ENERGY x ".data ++ (energyLabel ++ ("  ".data ++
        (signChars false ++ ("1".data ++ '.' :: ("5".data ++ []))))))
      (("TOTAL ENERGY x ".data : Str).length) (by decide))
    (by decide) (by decide) (by decide) (by decide) (by decide) (by decide)
    (by simp)

/-- Claim C6: a structure file with fewer than 7 lines fails the parse
with a `ParseError` (rather than silently producing a short lattice matrix
or missing counts), and any malformed numeric token in the lattice lines
(indices 2-4) or the species-count line (index 6) also fails the parse. -/
theorem c6_parse_failures (buffer : Str) :
    ((splitNl buffer).length < 7 → isErr (parseStructure buffer) = true) ∧
    (∀ l ∈ ((splitNl buffer).drop 2).take 3, ∀ t ∈ splitWs l,
      parseFloat t = none → isErr (parseStructure buffer) = true) ∧
    (∀ l6, (splitNl buffer).get? 6 = some l6 → ∀ t ∈ splitWs l6,
      parseInt t = none → isErr (parseStructure buffer) = true) := by
  refine ⟨?_, ?_, ?_⟩
  · intro hlen
    have hget : (splitNl buffer).get? 6 = none := by
      rw [List.get?_eq_none]
      omega
    rw [List.get?_eq_getElem?] at hget
    have hrep : read_vasp_repeats buffer = .error .missingLine := by
      simp [read_vasp_repeats, hget]
    cases hlat : read_vasp_lat buffer with
    | error e => simp [parseStructure, hlat, isErr]
    | ok latTmpl => simp [parseStructure, hlat, hrep, isErr]
  · intro l hl t ht hpf
    have hinner : mapOpt parseFloat (splitWs l) = none := mapOpt_none_of_mem ht hpf
    have houter : mapOpt (fun l => mapOpt parseFloat (splitWs l))
        (((splitNl buffer).drop 2).take 3) = none := mapOpt_none_of_mem hl hinner
    have hlat : read_vasp_lat buffer = .error .malformedToken := by
      simp [read_vasp_lat, houter]
    simp [parseStructure, hlat, isErr]
  · intro l6 hl6 t ht hpi
    rw [List.get?_eq_getElem?] at hl6
    have hrow : mapOpt parseInt (splitWs l6) = none := mapOpt_none_of_mem ht hpi
    have hrep : read_vasp_repeats buffer = .error .malformedToken := by
      simp [read_vasp_repeats, hl6, hrow]
    cases hlat : read_vasp_lat buffer with
    | error e => simp [parseStructure, hlat, isErr]
    | ok latTmpl => simp [parseStructure, hlat, hrep, isErr]

/-- Witness for C6 at a two-line file. -/
theorem c6_witness :
    (splitNl ("a\nb".data)).length < 7 ∧
      isErr (parseStructure ("a\nb".data)) = true :=
  ⟨by decide, (c6_parse_failures ("a\nb".data)).1 (by decide)⟩

/-- Claim C3: on a structure file of at least 7 lines, the lattice parser
takes the lines at 0-indexed positions 2 to 4, parses each as three
whitespace-separated floats forming the 3x3 lattice matrix, parses the
line at index 6 as whitespace-separated integers forming the species
counts, and forms the template from lines 0-1, a single placeholder, and
lines 5 onward, joined by newlines. -/
theorem c3_structure_parse (buffer l0 l1 l2 l3 l4 l5 l6 : Str) (rest : List Str)
    (t1 t2 t3 t4 t5 t6 t7 t8 t9 : Str) (v1 v2 v3 v4 v5 v6 v7 v8 v9 : ℚ)
    (ints : List ℤ)
    (hbuf : splitNl buffer = l0 :: l1 :: l2 :: l3 :: l4 :: l5 :: l6 :: rest)
    (h2 : splitWs l2 = [t1, t2, t3]) (h3 : splitWs l3 = [t4, t5, t6])
    (h4 : splitWs l4 = [t7, t8, t9])
    (hp1 : parseFloat t1 = some v1) (hp2 : parseFloat t2 = some v2)
    (hp3 : parseFloat t3 = some v3) (hp4 : parseFloat t4 = some v4)
    (hp5 : parseFloat t5 = some v5) (hp6 : parseFloat t6 = some v6)
    (hp7 : parseFloat t7 = some v7) (hp8 : parseFloat t8 = some v8)
    (hp9 : parseFloat t9 = some v9)
    (h6 : mapOpt parseInt (splitWs l6) = some ints) :
    read_vasp_lat buffer = .ok ([[v1, v2, v3], [v4, v5, v6], [v7, v8, v9]],
      joinNl ([l0, l1, placeholder, l5, l6] ++ rest)) ∧
    read_vasp_repeats buffer = .ok ints := by
  constructor
  · have helems : ((splitNl buffer).drop 2).take 3 = [l2, l3, l4] := by
      rw [hbuf]
      rfl
    have hrows : mapOpt (fun l => mapOpt parseFloat (splitWs l)) [l2, l3, l4]
        = some [[v1, v2, v3], [v4, v5, v6], [v7, v8, v9]] := by
      simp [mapOpt, h2, h3, h4, hp1, hp2, hp3, hp4, hp5, hp6, hp7, hp8, hp9]
    have hsame : sameLengths [[v1, v2, v3], [v4, v5, v6], [v7, v8, v9]] = true := by
      simp [sameLengths]
    have htake : (splitNl buffer).take 2 = [l0, l1] := by
      rw [hbuf]
      rfl
    have hdrop : (splitNl buffer).drop 5 = l5 :: l6 :: rest := by
      rw [hbuf]
      rfl
    simp only [read_vasp_lat, helems, hrows, hsame, htake, hdrop,
      eq_self_iff_true, if_true]
    simp
  · rw [read_vasp_repeats]
    have hget : (splitNl buffer).get? 6 = some l6 := by
      rw [hbuf]
      rfl
    simp only [hget, h6]

/-- Witness for C3 at a concrete 9-line structure file with integer-valued
lattice entries. -/
theorem c3_witness :
    (splitNl ("Si\n1.0\n4.0 0.0 0.0\n0.0 4.0 0.0\n0.0 0.0 2.0\nSi O\n2 4\nDirect\n0 0 0".data)
        = ["Si".data, "1.0".data, "4.0 0.0 0.0".data, "0.0 4.0 0.0".data,
           "0.0 0.0 2.0".data, "Si O".data, "2 4".data, "Direct".data,
           "0 0 0".data] ∧
      splitWs ("4.0 0.0 0.0".data) = ["4.0".data, "0.0".data, "0.0".data] ∧
      parseFloat ("4.0".data) = some 4 ∧ parseFloat ("0.0".data) = some 0 ∧
      parseFloat ("2.0".data) = some 2 ∧
      mapOpt parseInt (splitWs ("2 4".data)) = some [2, 4]) ∧
    (read_vasp_lat ("Si\n1.0\n4.0 0.0 0.0\n0.0 4.0 0.0\n0.0 0.0 2.0\nSi O\n2 4\nDirect\n0 0 0".data)
        = .ok ([[4, 0, 0], [0, 4, 0], [0, 0, 2]],
          joinNl (["Si".data, "1.0".data, placeholder, "Si O".data, "2 4".data] ++
            ["Direct".data, "0 0 0".data])) ∧
      read_vasp_repeats ("Si\n1.0\n4.0 0.0 0.0\n0.0 4.0 0.0\n0.0 0.0 2.0\nSi O\n2 4\nDirect\n0 0 0".data)
        = .ok [2, 4]) := by
  have hp4 : parseFloat ("4.0".data) = some 4 := by
    rw [show ("4.0".data : Str) = pyStr 4 from by decide]
    exact parseFloat_pyStr (show decExp (4:ℚ) = some 0 from by decide)
  have hp0 : parseFloat ("0.0".data) = some 0 := by
    rw [show ("0.0".data : Str) = pyStr 0 from by decide]
    exact parseFloat_pyStr (show decExp (0:ℚ) = some 0 from by decide)
  have hp2 : parseFloat ("2.0".data) = some 2 := by
    rw [show ("2.0".data : Str) = pyStr 2 from by decide]
    exact parseFloat_pyStr (show decExp (2:ℚ) = some 0 from by decide)
  refine ⟨⟨by decide, by decide, hp4, hp0, hp2, by decide⟩, ?_⟩
  exact c3_structure_parse
    ("Si\n1.0\n4.0 0.0 0.0\n0.0 4.0 0.0\n0.0 0.0 2.0\nSi O\n2 4\nDirect\n0 0 0".data)
    ("Si".data) ("1.0".data) ("4.0 0.0 0.0".data) ("0.0 4.0 0.0".data)
    ("0.0 0.0 2.0".data) ("Si O".data) ("2 4".data)
    ["Direct".data, "0 0 0".data]
    ("4.0".data) ("0.0".data) ("0.0".data) ("0.0".data) ("4.0".data)
    ("0.0".data) ("0.0".data) ("0.0".data) ("2.0".data)
    (4:ℚ) 0 0 0 4 0 0 0 2 [2, 4] (by decide) (by decide) (by decide) (by decide)
    hp4 hp0 hp0 hp0 hp4 hp0 hp0 hp0 hp2 (by decide)

/-- Claim C9: rendering a 3x3 matrix with the file-writer formatting and
re-parsing the rendered text with the lattice-parser numeric parse
(whitespace split, float conversion) recovers the original matrix exactly,
for every matrix of float values (rationals with terminating decimal
expansion); and the identity matrix formats exactly to
`1.0\t0.0\t0.0\n0.0\t1.0\t0.0\n0.0\t0.0\t1.0`. -/
theorem c9_format_roundtrip :
    (∀ m0 m1 m2 m3 m4 m5 m6 m7 m8 : ℚ,
      (∀ q ∈ [m0, m1, m2, m3, m4, m5, m6, m7, m8], (decExp q).isSome = true) →
      (splitNl (format_array [(m0, m1, m2), (m3, m4, m5), (m6, m7, m8)])).map
        (fun l => (splitWs l).map parseFloat) =
        [[some m0, some m1, some m2], [some m3, some m4, some m5],
         [some m6, some m7, some m8]]) ∧
    format_array [(1, 0, 0), (0, 1, 0), (0, 0, 1)] =
      ("1.0\t0.0\t0.0\n0.0\t1.0\t0.0\n0.0\t0.0\t1.0").data := by
  constructor
  · intro m0 m1 m2 m3 m4 m5 m6 m7 m8 h
    obtain ⟨k0, hk0⟩ := Option.isSome_iff_exists.mp (h m0 (by simp))
    obtain ⟨k1, hk1⟩ := Option.isSome_iff_exists.mp (h m1 (by simp))
    obtain ⟨k2, hk2⟩ := Option.isSome_iff_exists.mp (h m2 (by simp))
    obtain ⟨k3, hk3⟩ := Option.isSome_iff_exists.mp (h m3 (by simp))
    obtain ⟨k4, hk4⟩ := Option.isSome_iff_exists.mp (h m4 (by simp))
    obtain ⟨k5, hk5⟩ := Option.isSome_iff_exists.mp (h m5 (by simp))
    obtain ⟨k6, hk6⟩ := Option.isSome_iff_exists.mp (h m6 (by simp))
    obtain ⟨k7, hk7⟩ := Option.isSome_iff_exists.mp (h m7 (by simp))
    obtain ⟨k8, hk8⟩ := Option.isSome_iff_exists.mp (h m8 (by simp))
    rw [format_array_rows]
    rw [splitNl_format_three row_no_nl row_no_nl row_no_nl (by simp)]
    simp only [List.map_cons, List.map_nil]
    rw [row_parse hk0 hk1 hk2, row_parse hk3 hk4 hk5, row_parse hk6 hk7 hk8]
  · decide

/-- Witness for C9 at the identity matrix. -/
theorem c9_witness :
    (∀ q ∈ ([1, 0, 0, 0, 1, 0, 0, 0, 1] : List ℚ), (decExp q).isSome = true) ∧
    (splitNl (format_array [(1, 0, 0), (0, 1, 0), (0, 0, 1)])).map
      (fun l => (splitWs l).map parseFloat) =
      [[some 1, some 0, some 0], [some 0, some 1, some 0],
       [some 0, some 0, some 1]] :=
  ⟨by decide, c9_format_roundtrip.1 1 0 0 0 1 0 0 0 1 (by decide)⟩

end TightEV
